import Mathlib

/-!
Verification of the takeoff/landing reconstruction core of blagnacoscope.

The embedded code is `aggregate_takeoffs_landings` and its helpers from
`streamlit/pages/2_Takeoffs_&_Landings.py`, together with `_runway_heading`
from `streamlit/pages/1_Data_exploration_&_filtering.py`.

Modelling conventions:
* A pandas DataFrame of ADS-B pings is a `List Ping` in row order.
* `gdf.groupby("fr_id")[["time"]].diff().fillna(0)` is embedded as a single
  pass over the rows carrying, per aircraft identifier, the time of that
  aircraft's previous row (`withDeltaGo`).
* `(... > 3 * 60).cumsum()` is embedded as a scan carrying the running count
  of threshold crossings over the whole row sequence (`withNbGo`); note the
  source applies `cumsum` to the whole column, not per group.
* The reference tables `AIRLINES`/`AIRCRAFT`/`AIRPORTS` (external JSON data)
  are parameters of type `Lookup`; `dict.get(x, default)` is `Option.getD`.
* The geometric containment test `gdf.geometry.within(zone)` (the zone comes
  from `utils.airport_zones`, outside the sources) is an opaque-to-the-claims
  boolean parameter `zone : Ping → Bool`.
* The timezone rendering of `datetime`/`hour` is presentation of the stored
  epoch time and is not modelled; the representative epoch time of the first
  ping is kept in the output record.
* pyproj's `Geod(ellps="WGS84").inv` is a parameter of `_runway_heading`;
  its documented forward-azimuth range is (-180, 180].
-/

/-- One ADS-B ping row, with the columns used by `aggregate_takeoffs_landings`. -/
structure Ping where
  fr_id : String
  time : Int
  latitude : ℚ
  longitude : ℚ
  vertical_speed : Int
  aircraft_code : String
  registration : String
  origin_airport_iata : String
  destination_airport_iata : String
  number : String
  airline_iata : String
  callsign : String
  airline_icao : String
deriving DecidableEq, Repr, Inhabited

/-- A `code → display name` reference table (`AIRLINES`, `AIRCRAFT`, `AIRPORTS`). -/
abbrev Lookup := String → Option String

/-- The gap threshold `3 * 60` seconds from
`gdf["subflight_nb"] = (gdf["ping_delta_t"] > 3 * 60).cumsum()`. -/
def gap_threshold : Int := 3 * 60

/-- The `diff().fillna(0)` step for one row: its time minus the previous time
when there is one, `0` otherwise (the filled-in NaN of a group's first row). -/
def prevDelta (t0 : Option Int) (t : Int) : Int :=
  match t0 with
  | none => 0
  | some s => t - s

/-- State-passing embedding of `gdf.groupby("fr_id")[["time"]].diff().fillna(0)`:
each row is paired with its time minus the time of the previous row of the same
aircraft (in row order), `0` when there is no previous row. `seen` maps an
aircraft identifier to the time of its most recent row already traversed. -/
def withDeltaGo (seen : String → Option Int) : List Ping → List (Ping × Int)
  | [] => []
  | p :: ps =>
    (p, prevDelta (seen p.fr_id) p.time)
      :: withDeltaGo (fun b => if b = p.fr_id then some p.time else seen b) ps

/-- The `ping_delta_t` column: per-aircraft time deltas in row order. -/
def withDelta (l : List Ping) : List (Ping × Int) := withDeltaGo (fun _ => none) l

/-- Embedding of `(gdf["ping_delta_t"] > 3 * 60).cumsum()`: each (ping, delta)
row is paired with the running count of rows whose delta exceeds the threshold.
The count is over the whole row sequence, exactly as the source applies
`cumsum` to the whole boolean column. -/
def withNbGo (c : Nat) : List (Ping × Int) → List ((Ping × Int) × Nat)
  | [] => []
  | r :: rs =>
    let c' := if gap_threshold < r.2 then c + 1 else c
    (r, c') :: withNbGo c' rs

/-- The fully annotated row sequence: each ping with its `ping_delta_t` and its
`subflight_nb`. -/
def annot (l : List Ping) : List ((Ping × Int) × Nat) :=
  withNbGo 0 (withDelta l)

/-- Embedding of `f"{x['fr_id']}_{x['subflight_nb']}"`. -/
def subflight_id (p : Ping) (nb : Nat) : String :=
  p.fr_id ++ "_" ++ Nat.repr nb

/-- The `subflight_id` column value of an annotated row. -/
def rowId (r : (Ping × Int) × Nat) : String :=
  subflight_id r.1.1 r.2

/-- The distinct subflight identifiers of the input, in order of first
occurrence (the source's `groupby("subflight_id")` group keys). -/
def subflightKeys (l : List Ping) : List String :=
  ((annot l).map rowId).dedup

/-- The annotated rows of one subflight. -/
def subflightRows (l : List Ping) (k : String) : List ((Ping × Int) × Nat) :=
  (annot l).filter (fun r => rowId r == k)

/-- The pings of one subflight (the rows grouped under key `k`). -/
def subflightPings (l : List Ping) (k : String) : List Ping :=
  (subflightRows l k).map (fun r => r.1.1)

/-- Embedding of `f"{TABLE.get(x, '')} ({x})"` (and of
`f"{AIRPORTS.get(x, {'name': ''})['name']} ({x})"` with the table restricted
to the name field): a missing code resolves to the empty name. -/
def resolve_name (table : Lookup) (code : String) : String :=
  (table code).getD "" ++ " (" ++ code ++ ")"

/-- Embedding of the classification
`lambda x: "takeoff" if x >= 0 else "landing"` applied to the mean vertical
speed. -/
def rwy_event_of (m : ℚ) : String :=
  if 0 ≤ m then "takeoff" else "landing"

/-- The mean of the `vertical_speed` column over a subflight. -/
def mean_vs (pings : List Ping) : ℚ :=
  (pings.map (fun p => (p.vertical_speed : ℚ))).sum / pings.length

/-- One output row of the `toff_land` table (the `datetime`/`hour` renderings
of the representative epoch time are not modelled; the time itself is kept). -/
structure RunwayEvent where
  time : Int
  airline : String
  aircraft : String
  origin_airport : String
  destination_airport : String
  registration : String
  callsign : String
  number : String
  rwy_event : String
  connecting_airport : String
  fr_id : String
  vertical_speed : ℚ
deriving DecidableEq, Repr, Inhabited

/-- Embedding of `_get_connecting_airport`: `match row["rwy_event"]` with
cases `"landing"`, `"takeoff"` and a default of `"N/A"`. -/
def _get_connecting_airport (rwyEvent origin destination : String) : String :=
  match rwyEvent with
  | "landing" => origin
  | "takeoff" => destination
  | _ => "N/A"

/-- The aggregation of one subflight group into one `toff_land` row: `first`
of each carried column, `mean` of `vertical_speed`, then the derived
`rwy_event`, resolved display names and `connecting_airport` columns. -/
def mkEvent (AIRLINES AIRCRAFT AIRPORTS : Lookup) (pings : List Ping) : RunwayEvent :=
  let p := pings.headD default
  let m := mean_vs pings
  let ev := rwy_event_of m
  let orig := resolve_name AIRPORTS p.origin_airport_iata
  let dest := resolve_name AIRPORTS p.destination_airport_iata
  { time := p.time
    airline := resolve_name AIRLINES p.airline_icao
    aircraft := resolve_name AIRCRAFT p.aircraft_code
    origin_airport := orig
    destination_airport := dest
    registration := p.registration
    callsign := p.callsign
    number := p.number
    rwy_event := ev
    connecting_airport := _get_connecting_airport ev orig dest
    fr_id := p.fr_id
    vertical_speed := m }

/-- Embedding of `aggregate_takeoffs_landings`: geofilter by the zone
predicate, segment into subflights, and collapse each subflight into one
runway-event row. -/
def aggregate_takeoffs_landings (AIRLINES AIRCRAFT AIRPORTS : Lookup)
    (zone : Ping → Bool) (df : List Ping) : List RunwayEvent :=
  let gdf := df.filter zone
  (subflightKeys gdf).map (fun k => mkEvent AIRLINES AIRCRAFT AIRPORTS (subflightPings gdf k))

/-- Embedding of `_runway_heading` from the data-exploration page: the inverse
geodesic azimuth (`Geod(ellps="WGS84").inv`, passed in as `geod_inv`) from the
first to the last coordinate of the runway centerline. -/
def _runway_heading (geod_inv : (ℚ × ℚ) → (ℚ × ℚ) → ℚ)
    (coords : List (ℚ × ℚ)) (h : coords ≠ []) : ℚ :=
  geod_inv (coords.head h) (coords.getLast h)

/-- A ping with only the fields relevant to segmentation populated, used for
concrete evaluations. -/
def testPing (a : String) (t : Int) (vs : Int) : Ping :=
  { fr_id := a, time := t, latitude := 0, longitude := 0, vertical_speed := vs
    aircraft_code := "", registration := "", origin_airport_iata := ""
    destination_airport_iata := "", number := "", airline_iata := ""
    callsign := "", airline_icao := "" }

/-- Comparison definition following the spec's words (§4.2): the successive
time delta between each ping and its predecessor within the same aircraft
group, in the order given, with delta `0` when there is no predecessor.
`t0` is the time of the predecessor preceding the list, if any. -/
def spec_group_deltas (t0 : Option Int) : List Ping → List (Ping × Int)
  | [] => []
  | p :: ps => (p, prevDelta t0 p.time) :: spec_group_deltas (some p.time) ps

/-- Stable insertion of a ping into a time-sorted list: a ping goes before the
first strictly later ping, so equal timestamps keep their original order. -/
def insertByTime (p : Ping) : List Ping → List Ping
  | [] => [p]
  | q :: qs => if p.time ≤ q.time then p :: q :: qs else q :: insertByTime p qs

/-- Comparison definition following the spec's words (§4.2): stable sort of a
ping sequence by timestamp ascending, ties broken by original input order. -/
def sortByTime : List Ping → List Ping
  | [] => []
  | p :: ps => insertByTime p (sortByTime ps)

/-- The joint order/step relation between any two rows of the counter scan:
counters never decrease, and a row whose delta exceeds the threshold has a
counter strictly above every earlier row's. -/
def nbRel (r r' : (Ping × Int) × Nat) : Prop :=
  r.2 ≤ r'.2 ∧ (gap_threshold < r'.1.2 → r.2 < r'.2)

/-- An empty reference table: every code is missing. -/
def noTable : Lookup := fun _ => none

/-- A zone containing every ping (concrete stand-in for the containment test). -/
def allZone : Ping → Bool := fun _ => true

/-- A zone containing no ping. -/
def noZone : Ping → Bool := fun _ => false

/-- A one-ping input used to instantiate theorems about the pipeline output. -/
def sampleDf : List Ping := [testPing "A" 0 0]

/-- A two-aircraft input used to instantiate the partition theorem. -/
def sampleDf2 : List Ping := [testPing "A" 0 0, testPing "B" 10 0]

/-- The pipeline output on `sampleDf` with empty reference tables. -/
def sampleEvents : List RunwayEvent :=
  aggregate_takeoffs_landings noTable noTable noTable allZone sampleDf

/-- The single runway event produced from `sampleDf`. -/
def sampleEvent : RunwayEvent := sampleEvents.headD default

/-- A constant azimuth function, a concrete stand-in for `Geod.inv` (whose
documented forward-azimuth range is `(-180, 180]`). -/
def constAz (v : ℚ) : (ℚ × ℚ) → (ℚ × ℚ) → ℚ := fun _ _ => v

/-! ### Decimal representations contain no underscore and are injective

The composite identifier `f"{fr_id}_{subflight_nb}"` determines `fr_id` and
`subflight_nb`: the decimal digits of the sequence number contain no
underscore, so the identifier splits unambiguously at its last underscore. -/

theorem digitChar_ne_underscore (n : Nat) : Nat.digitChar n ≠ '_' := by
  rcases Nat.lt_or_ge n 16 with h | h
  · interval_cases n <;> decide
  · show (if n = 0 then '0' else
      if n = 1 then '1' else
      if n = 2 then '2' else
      if n = 3 then '3' else
      if n = 4 then '4' else
      if n = 5 then '5' else
      if n = 6 then '6' else
      if n = 7 then '7' else
      if n = 8 then '8' else
      if n = 9 then '9' else
      if n = 0xa then 'a' else
      if n = 0xb then 'b' else
      if n = 0xc then 'c' else
      if n = 0xd then 'd' else
      if n = 0xe then 'e' else
      if n = 0xf then 'f' else
      '*') ≠ '_'
    repeat rw [if_neg (by omega)]
    decide

theorem toDigitsCore_append (f n : Nat) (ds : List Char) :
    Nat.toDigitsCore 10 f n ds = Nat.toDigitsCore 10 f n [] ++ ds := by
  induction f generalizing n ds with
  | zero => simp [Nat.toDigitsCore]
  | succ f ih =>
    simp only [Nat.toDigitsCore]
    split
    · rfl
    · rw [ih (n / 10) (Nat.digitChar (n % 10) :: ds), ih (n / 10) [Nat.digitChar (n % 10)]]
      simp

theorem toDigitsCore_fuel (f f' n : Nat) (ds : List Char) (h : n < f) (h' : n < f') :
    Nat.toDigitsCore 10 f n ds = Nat.toDigitsCore 10 f' n ds := by
  induction n using Nat.strong_induction_on generalizing f f' ds with
  | _ n ih =>
    rcases f with _ | f
    · omega
    rcases f' with _ | f'
    · omega
    simp only [Nat.toDigitsCore]
    split
    · rfl
    · rename_i hne
      have hpos : 0 < n := by
        rcases Nat.eq_zero_or_pos n with h0 | h0
        · exact absurd (by simp [h0]) hne
        · exact h0
      have hlt : n / 10 < n := Nat.div_lt_self hpos (by norm_num)
      exact ih (n / 10) hlt _ _ _ (by omega) (by omega)

theorem toDigits_eq_of_lt (n : Nat) (h : n < 10) :
    Nat.toDigits 10 n = [Nat.digitChar n] := by
  show Nat.toDigitsCore 10 (n + 1) n [] = _
  simp only [Nat.toDigitsCore]
  rw [if_pos ((Nat.div_eq_zero_iff (by norm_num)).mpr h), Nat.mod_eq_of_lt h]

theorem toDigits_eq_of_ge (n : Nat) (h : 10 ≤ n) :
    Nat.toDigits 10 n = Nat.toDigits 10 (n / 10) ++ [Nat.digitChar (n % 10)] := by
  show Nat.toDigitsCore 10 (n + 1) n [] = _
  simp only [Nat.toDigitsCore]
  have hne : ¬ n / 10 = 0 := by
    rw [Nat.div_eq_zero_iff (by norm_num)]
    omega
  rw [if_neg hne, toDigitsCore_append]
  have hlt : n / 10 < n := Nat.div_lt_self (by omega) (by norm_num)
  congr 1
  exact toDigitsCore_fuel _ _ _ _ hlt (Nat.lt_succ_self _)

theorem toDigits_ne_nil (n : Nat) : Nat.toDigits 10 n ≠ [] := by
  rcases Nat.lt_or_ge n 10 with h | h
  · rw [toDigits_eq_of_lt n h]
    simp
  · rw [toDigits_eq_of_ge n h]
    simp

theorem toDigits_ne_underscore (n : Nat) : ∀ c ∈ Nat.toDigits 10 n, c ≠ '_' := by
  induction n using Nat.strong_induction_on with
  | _ n ih =>
    rcases Nat.lt_or_ge n 10 with h | h
    · rw [toDigits_eq_of_lt n h]
      intro c hc
      simp only [List.mem_singleton] at hc
      exact hc ▸ digitChar_ne_underscore n
    · rw [toDigits_eq_of_ge n h]
      intro c hc
      rcases List.mem_append.mp hc with hc | hc
      · exact ih (n / 10) (Nat.div_lt_self (by omega) (by norm_num)) c hc
      · simp only [List.mem_singleton] at hc
        exact hc ▸ digitChar_ne_underscore (n % 10)

theorem digitChar_inj_of_lt : ∀ a < 10, ∀ b < 10, Nat.digitChar a = Nat.digitChar b → a = b := by
  decide

theorem toDigits_injective (n : Nat) : ∀ m : Nat, Nat.toDigits 10 n = Nat.toDigits 10 m → n = m := by
  induction n using Nat.strong_induction_on with
  | _ n ih =>
    intro m h
    rcases Nat.lt_or_ge n 10 with hn | hn <;> rcases Nat.lt_or_ge m 10 with hm | hm
    · rw [toDigits_eq_of_lt n hn, toDigits_eq_of_lt m hm] at h
      simp only [List.cons.injEq, and_true] at h
      exact digitChar_inj_of_lt n hn m hm h
    · rw [toDigits_eq_of_lt n hn, toDigits_eq_of_ge m hm] at h
      have := congrArg List.length h
      rw [List.length_append] at this
      simp only [List.length_singleton] at this
      exact absurd (List.length_eq_zero.mp (by omega)) (toDigits_ne_nil (m / 10))
    · rw [toDigits_eq_of_ge n hn, toDigits_eq_of_lt m hm] at h
      have := congrArg List.length h
      rw [List.length_append] at this
      simp only [List.length_singleton] at this
      exact absurd (List.length_eq_zero.mp (by omega)) (toDigits_ne_nil (n / 10))
    · rw [toDigits_eq_of_ge n hn, toDigits_eq_of_ge m hm] at h
      have h' := congrArg List.reverse h
      simp only [List.reverse_append, List.reverse_cons, List.reverse_nil, List.nil_append,
        List.singleton_append, List.cons.injEq] at h'
      obtain ⟨hdig, hrest⟩ := h'
      have hmod : n % 10 = m % 10 :=
        digitChar_inj_of_lt _ (Nat.mod_lt n (by norm_num)) _ (Nat.mod_lt m (by norm_num)) hdig
      have hdiv : n / 10 = m / 10 := by
        apply ih (n / 10) (Nat.div_lt_self (by omega) (by norm_num))
        have := congrArg List.reverse hrest
        simpa using this
      omega

theorem repr_injective {n m : Nat} (h : Nat.repr n = Nat.repr m) : n = m :=
  toDigits_injective n m (congrArg String.data h)

theorem repr_ne_underscore (n : Nat) : ∀ c ∈ (Nat.repr n).data, c ≠ '_' :=
  toDigits_ne_underscore n

theorem append_underscore_inj (as : List Char) :
    ∀ (bs xs ys : List Char), (∀ c ∈ xs, c ≠ '_') → (∀ c ∈ ys, c ≠ '_') →
    as ++ '_' :: xs = bs ++ '_' :: ys → as = bs ∧ xs = ys := by
  induction as with
  | nil =>
    intro bs xs ys hx hy h
    cases bs with
    | nil =>
      simp only [List.nil_append, List.cons.injEq, true_and] at h
      exact ⟨rfl, h⟩
    | cons b bs' =>
      simp only [List.nil_append, List.cons_append, List.cons.injEq] at h
      exact absurd rfl (hx '_' (h.2 ▸ List.mem_append_right _ (List.mem_cons_self _ _)))
  | cons a as' ih =>
    intro bs xs ys hx hy h
    cases bs with
    | nil =>
      simp only [List.nil_append, List.cons_append, List.cons.injEq] at h
      exact absurd rfl (hy '_' (h.2 ▸ List.mem_append_right _ (List.mem_cons_self _ _)))
    | cons b bs' =>
      simp only [List.cons_append, List.cons.injEq] at h
      obtain ⟨hab, htail⟩ := h
      obtain ⟨h1, h2⟩ := ih bs' xs ys hx hy htail
      exact ⟨by rw [hab, h1], h2⟩

theorem subflight_id_inj {p q : Ping} {n m : Nat}
    (h : subflight_id p n = subflight_id q m) : p.fr_id = q.fr_id ∧ n = m := by
  have hd : p.fr_id.data ++ '_' :: (Nat.repr n).data
      = q.fr_id.data ++ '_' :: (Nat.repr m).data := by
    have := congrArg String.data h
    simpa [subflight_id, List.append_assoc] using this
  obtain ⟨h1, h2⟩ := append_underscore_inj _ _ _ _
    (repr_ne_underscore n) (repr_ne_underscore m) hd
  exact ⟨String.ext h1, repr_injective (String.ext h2)⟩

/-! ### Grouping by a key partitions a list -/

theorem count_filter_key {α κ : Type} [DecidableEq α] [DecidableEq κ]
    (f : α → κ) (k : κ) (p : α) (l : List α) :
    List.count p (l.filter (fun x => f x == k)) = if f p = k then List.count p l else 0 := by
  split
  · rename_i h
    exact List.count_filter (by simp [h])
  · rename_i h
    rw [List.count_eq_zero]
    simp only [List.mem_filter, beq_iff_eq, not_and]
    intro _ hk
    exact h hk

theorem sum_map_ite_count {κ : Type} [DecidableEq κ] (k : κ) (c : Nat) (ks : List κ) :
    (ks.map (fun x => if k = x then c else 0)).sum = ks.count k * c := by
  induction ks with
  | nil => simp
  | cons k' ks ih =>
    simp only [List.map_cons, List.sum_cons, List.count_cons, ih, beq_iff_eq]
    rcases eq_or_ne k k' with h | h
    · rw [if_pos h, if_pos h.symm, Nat.add_mul, Nat.one_mul, Nat.add_comm]
    · rw [if_neg h, if_neg (Ne.symm h), Nat.add_zero, Nat.zero_add]

theorem flatMap_groups_perm {α κ : Type} [DecidableEq α] [DecidableEq κ]
    (f : α → κ) (l : List α) :
    ((l.map f).dedup.flatMap (fun k => l.filter (fun x => f x == k))).Perm l := by
  rw [List.perm_iff_count]
  intro p
  rw [List.count_flatMap]
  have hmap : ((l.map f).dedup.map (List.count p ∘ fun k => l.filter (fun x => f x == k)))
      = (l.map f).dedup.map (fun k => if f p = k then List.count p l else 0) :=
    List.map_congr_left (fun k _ => count_filter_key f k p l)
  rw [hmap, sum_map_ite_count]
  by_cases hp : p ∈ l
  · rw [List.count_eq_one_of_mem (List.nodup_dedup _)
      (List.mem_dedup.mpr (List.mem_map_of_mem f hp)), Nat.one_mul]
  · rw [List.count_eq_zero.mpr hp, Nat.mul_zero]

theorem flatMap_map_comp {α β γ : Type} (g : β → γ) (h : α → List β) (ks : List α) :
    ks.flatMap (fun k => (h k).map g) = (ks.flatMap h).map g :=
  (List.map_flatMap g h ks).symm

/-! ### Structure of the annotated row sequence -/

theorem withDeltaGo_map_fst (l : List Ping) :
    ∀ seen, (withDeltaGo seen l).map Prod.fst = l := by
  induction l with
  | nil => intro seen; rfl
  | cons p ps ih =>
    intro seen
    simp only [withDeltaGo, List.map_cons, ih]

theorem withNbGo_map_fst (rows : List (Ping × Int)) :
    ∀ c, (withNbGo c rows).map Prod.fst = rows := by
  induction rows with
  | nil => intro c; rfl
  | cons r rs ih =>
    intro c
    simp only [withNbGo, List.map_cons, ih]

theorem annot_map_ping (l : List Ping) : (annot l).map (fun r => r.1.1) = l := by
  have : (annot l).map (fun r => r.1.1) = ((annot l).map Prod.fst).map Prod.fst := by
    rw [List.map_map]
    rfl
  rw [this, annot, withNbGo_map_fst, withDelta, withDeltaGo_map_fst]

/-! ### Per-aircraft view of the delta computation -/

theorem withDeltaGo_filter (l : List Ping) :
    ∀ (seen : String → Option Int) (a : String),
    (withDeltaGo seen l).filter (fun r => r.1.fr_id == a)
      = spec_group_deltas (seen a) (l.filter (fun p => p.fr_id == a)) := by
  induction l with
  | nil => intro seen a; rfl
  | cons p ps ih =>
    intro seen a
    by_cases hpa : p.fr_id = a
    · rw [withDeltaGo, List.filter_cons, if_pos (by simp [hpa]),
        List.filter_cons, if_pos (by simp [hpa]), spec_group_deltas]
      have hseen : seen p.fr_id = seen a := by rw [hpa]
      rw [ih _ a, hseen]
      have hupd : (if a = p.fr_id then some p.time else seen a) = some p.time :=
        if_pos hpa.symm
      rw [hupd]
    · rw [withDeltaGo, List.filter_cons, if_neg (by simp [hpa]),
        List.filter_cons, if_neg (by simp [hpa]), ih _ a]
      have hupd : (if a = p.fr_id then some p.time else seen a) = seen a :=
        if_neg (fun h : a = p.fr_id => hpa h.symm)
      rw [hupd]

theorem spec_group_deltas_chain (l : List Ping) :
    ∀ t0, List.Chain' (fun r r' => r'.2 = r'.1.time - r.1.time) (spec_group_deltas t0 l) := by
  induction l with
  | nil => intro t0; simp [spec_group_deltas]
  | cons p ps ih =>
    intro t0
    rw [spec_group_deltas, List.chain'_cons']
    refine ⟨?_, ih (some p.time)⟩
    intro y hy
    cases ps with
    | nil => simp [spec_group_deltas] at hy
    | cons q qs =>
      simp only [spec_group_deltas, List.head?_cons, Option.mem_def, Option.some.injEq] at hy
      rw [← hy]
      rfl

theorem spec_group_deltas_nil_start (p : Ping) (ps : List Ping) :
    spec_group_deltas none (p :: ps) = (p, 0) :: spec_group_deltas (some p.time) ps := rfl

/-! ### Structure of the running subflight counter -/

theorem withNbGo_chain_step (rows : List (Ping × Int)) :
    ∀ c, List.Chain' (fun r r' => r'.2 = if gap_threshold < r'.1.2 then r.2 + 1 else r.2)
      (withNbGo c rows) := by
  induction rows with
  | nil => intro c; simp [withNbGo]
  | cons r rs ih =>
    intro c
    rw [withNbGo, List.chain'_cons']
    refine ⟨?_, ih _⟩
    intro y hy
    cases rs with
    | nil => simp [withNbGo] at hy
    | cons r2 rs2 =>
      simp only [withNbGo, List.head?_cons, Option.mem_def, Option.some.injEq] at hy
      rw [← hy]

theorem withNbGo_mem_le (rows : List (Ping × Int)) :
    ∀ c, ∀ y ∈ withNbGo c rows, c ≤ y.2 ∧ (gap_threshold < y.1.2 → c < y.2) := by
  induction rows with
  | nil => intro c y hy; simp [withNbGo] at hy
  | cons r rs ih =>
    intro c y hy
    rw [withNbGo] at hy
    rcases List.mem_cons.mp hy with h | h
    · subst h
      refine ⟨by dsimp only; split <;> omega, ?_⟩
      dsimp only
      intro hf
      rw [if_pos hf]
      omega
    · obtain ⟨h1, h2⟩ := ih _ y h
      constructor
      · split at h1 <;> omega
      · intro hf
        have := h2 hf
        split at this <;> omega

theorem withNbGo_pairwise (rows : List (Ping × Int)) :
    ∀ c, List.Pairwise nbRel (withNbGo c rows) := by
  induction rows with
  | nil => intro c; simp [withNbGo]
  | cons r rs ih =>
    intro c
    rw [withNbGo]
    exact List.Pairwise.cons (fun y hy => withNbGo_mem_le rs _ y hy) (ih _)

theorem annot_pairwise (l : List Ping) : List.Pairwise nbRel (annot l) :=
  withNbGo_pairwise (withDelta l) 0

/-! ### Chains survive restriction to one value of a monotone key -/

theorem chain'_filter_of_mono {α : Type} (D : α → α → Prop) (f : α → Nat) (n : Nat) :
    ∀ (s : List α), List.Chain' D s → List.Pairwise (fun x y => f x ≤ f y) s →
    List.Chain' D (s.filter (fun x => f x == n)) := by
  intro s
  induction s with
  | nil => intro _ _; simp
  | cons x rest ih =>
    intro hc hp
    obtain ⟨hc1, hc2⟩ := List.chain'_cons'.mp hc
    obtain ⟨hp1, hp2⟩ := List.pairwise_cons.mp hp
    rw [List.filter_cons]
    split
    · rename_i hx
      rw [List.chain'_cons']
      refine ⟨?_, ih hc2 hp2⟩
      intro y hy
      cases rest with
      | nil => simp at hy
      | cons z rs =>
        by_cases hz : f z = n
        · rw [List.filter_cons, if_pos (by simp [hz])] at hy
          simp only [List.head?_cons, Option.mem_def, Option.some.injEq] at hy
          exact hy ▸ hc1 z (by simp)
        · have hxz : f x ≤ f z := hp1 z (by simp)
          have hxn : f x = n := by simpa using hx
          have hnil : (z :: rs).filter (fun w => f w == n) = [] := by
            rw [List.filter_eq_nil_iff]
            intro w hw
            rcases List.mem_cons.mp hw with h | h
            · subst h
              simp only [beq_iff_eq]
              omega
            · have hzw : f z ≤ f w := (List.pairwise_cons.mp hp2).1 w h
              simp only [beq_iff_eq]
              omega
          rw [hnil] at hy
          simp at hy
    · exact ih hc2 hp2

theorem chain'_and {α : Type} {R S : α → α → Prop} :
    ∀ {l : List α}, List.Chain' R l → List.Chain' S l →
    List.Chain' (fun a b => R a b ∧ S a b) l := by
  intro l hr hs
  rw [List.chain'_iff_get] at hr hs ⊢
  exact fun i h => ⟨hr i h, hs i h⟩

/-! ### The subflight grouping, decomposed by aircraft and counter value -/

theorem subflight_id_congr {p q : Ping} {n m : Nat}
    (h1 : p.fr_id = q.fr_id) (h2 : n = m) : subflight_id p n = subflight_id q m := by
  rw [subflight_id, subflight_id, h1, h2]

theorem rowId_beq_split (r r0 : (Ping × Int) × Nat) :
    (rowId r == rowId r0) = ((r.2 == r0.2) && (r.1.1.fr_id == r0.1.1.fr_id)) := by
  rw [Bool.eq_iff_iff]
  simp only [beq_iff_eq, Bool.and_eq_true]
  constructor
  · intro h
    obtain ⟨h1, h2⟩ := subflight_id_inj h
    exact ⟨h2, h1⟩
  · rintro ⟨h2, h1⟩
    exact subflight_id_congr h1 h2

theorem subflightRows_decompose (l : List Ping) (r0 : (Ping × Int) × Nat) :
    subflightRows l (rowId r0)
      = ((annot l).filter (fun r => r.1.1.fr_id == r0.1.1.fr_id)).filter
          (fun r => r.2 == r0.2) := by
  rw [subflightRows, List.filter_filter]
  exact List.filter_congr (fun r _ => by rw [rowId_beq_split r r0, Bool.and_comm])

theorem annot_aircraft_chain (l : List Ping) (a : String) :
    List.Chain' (fun r r' => r'.1.2 = r'.1.1.time - r.1.1.time)
      ((annot l).filter (fun r => r.1.1.fr_id == a)) := by
  have hproj : ((annot l).filter (fun r => r.1.1.fr_id == a)).map Prod.fst
      = (withDelta l).filter (fun r => r.1.fr_id == a) := by
    rw [annot,
      show (fun (r : (Ping × Int) × Nat) => r.1.1.fr_id == a)
        = (fun r : Ping × Int => r.1.fr_id == a) ∘ Prod.fst from rfl,
      ← List.filter_map Prod.fst, withNbGo_map_fst]
  have hchain1 : List.Chain' (fun r r' => r'.2 = r'.1.time - r.1.time)
      (((annot l).filter (fun r => r.1.1.fr_id == a)).map Prod.fst) := by
    rw [hproj, withDelta, withDeltaGo_filter]
    exact spec_group_deltas_chain _ _
  rw [List.chain'_map] at hchain1
  exact hchain1

/-- C4 (amended): for every produced subflight, the time difference between
consecutive pings inside it (in the segmenter's row order, which is time order
whenever each aircraft's pings arrive time-sorted) is at most the gap
threshold of 180 seconds. A new subflight starts only when a delta strictly
exceeds 180 s, so a subflight may span a gap of exactly 180 s but never more;
the original claim's strict bound `< 180` fails at exactly 180. -/
theorem subflightPings_chain (l : List Ping) (k : String) :
    List.Chain' (fun p q => q.time - p.time ≤ gap_threshold) (subflightPings l k) := by
  by_cases hne : (annot l).filter (fun r => rowId r == k) = []
  · rw [subflightPings, subflightRows, hne]
    simp
  · obtain ⟨r0, hr0⟩ := List.exists_mem_of_ne_nil _ hne
    have hk : k = rowId r0 := by
      have := (List.mem_filter.mp hr0).2
      simp only [beq_iff_eq] at this
      exact this.symm
    subst hk
    rw [subflightPings, subflightRows_decompose l r0]
    set a := r0.1.1.fr_id with ha
    set n0 := r0.2 with hn0
    set s := (annot l).filter (fun r => r.1.1.fr_id == a) with hs
    have hchainD : List.Chain' (fun r r' => r'.1.2 = r'.1.1.time - r.1.1.time) s :=
      annot_aircraft_chain l a
    have hsub_s : s.Sublist (annot l) := List.filter_sublist _
    have hpair_s : List.Pairwise nbRel s := (annot_pairwise l).sublist hsub_s
    have hmono : List.Pairwise (fun x y : (Ping × Int) × Nat => x.2 ≤ y.2) s :=
      hpair_s.imp (fun h => h.1)
    set g := s.filter (fun r => r.2 == n0) with hg
    have hchainD_g : List.Chain' (fun r r' => r'.1.2 = r'.1.1.time - r.1.1.time) g :=
      chain'_filter_of_mono _ (fun r => r.2) n0 s hchainD hmono
    have hpair_g : List.Pairwise nbRel g :=
      hpair_s.sublist (List.filter_sublist _)
    have hnb : ∀ r ∈ g, r.2 = n0 := by
      intro r hr
      have := (List.mem_filter.mp hr).2
      simpa using this
    have hmem_chain : List.Chain' (fun r r' : (Ping × Int) × Nat => r.2 = n0 ∧ r'.2 = n0) g :=
      (List.pairwise_of_forall_mem_list (fun x hx y hy => ⟨hnb x hx, hnb y hy⟩)).chain'
    have hall := chain'_and (chain'_and hchainD_g hpair_g.chain') hmem_chain
    have hfinal : List.Chain'
        (fun r r' : (Ping × Int) × Nat => r'.1.1.time - r.1.1.time ≤ gap_threshold) g := by
      refine hall.imp ?_
      rintro r r' ⟨⟨hD, hP⟩, hn, hn'⟩
      have hflag : ¬ gap_threshold < r'.1.2 := by
        intro hf
        have := hP.2 hf
        omega
      omega
    rw [List.chain'_map]
    exact hfinal

/-! ### Claim theorems -/

/-- C4 counterexample: a single aircraft pinging at times 0 and 180 produces
one subflight spanning a gap of exactly 180 seconds, so the claimed strict
bound (every in-subflight gap `< 180`) is false. -/
theorem subflight_gap_exactly_threshold :
    subflightPings [testPing "A" 0 0, testPing "A" 180 0] "A_0"
      = [testPing "A" 0 0, testPing "A" 180 0]
    ∧ ¬ ((testPing "A" 180 0).time - (testPing "A" 0 0).time < gap_threshold) := by
  constructor
  · decide
  · decide

/-- C2: segmentation is a partition of the segmenter's input. The subflights'
pings taken together are a permutation of the input (every input ping belongs
to exactly one produced subflight, no duplication, no omission), no produced
subflight is empty, and no subflight mixes two aircraft identifiers. -/
theorem segmentation_partition (l : List Ping) :
    ((subflightKeys l).flatMap (fun k => subflightPings l k)).Perm l
    ∧ (∀ k ∈ subflightKeys l, subflightPings l k ≠ [])
    ∧ (∀ k ∈ subflightKeys l, ∀ p ∈ subflightPings l k, ∀ q ∈ subflightPings l k,
        p.fr_id = q.fr_id) := by
  refine ⟨?_, ?_, ?_⟩
  · have h1 : (subflightKeys l).flatMap (fun k => subflightPings l k)
        = ((subflightKeys l).flatMap
            (fun k => (annot l).filter (fun r => rowId r == k))).map (fun r => r.1.1) := by
      simp only [subflightPings, subflightRows]
      rw [flatMap_map_comp]
    rw [h1]
    have h2 : ((subflightKeys l).flatMap
        (fun k => (annot l).filter (fun r => rowId r == k))).Perm (annot l) := by
      rw [subflightKeys]
      exact flatMap_groups_perm rowId (annot l)
    have h3 := h2.map (fun r : (Ping × Int) × Nat => r.1.1)
    rwa [annot_map_ping] at h3
  · intro k hk
    rw [subflightKeys] at hk
    obtain ⟨r, hr, hrk⟩ := List.mem_map.mp (List.mem_dedup.mp hk)
    have hmem : r ∈ subflightRows l k :=
      List.mem_filter.mpr ⟨hr, by simp [hrk]⟩
    exact List.ne_nil_of_mem (List.mem_map_of_mem _ hmem)
  · intro k hk p hp q hq
    simp only [subflightPings] at hp hq
    obtain ⟨rp, hrp, hrpe⟩ := List.mem_map.mp hp
    obtain ⟨rq, hrq, hrqe⟩ := List.mem_map.mp hq
    have h1 : rowId rp = k := by simpa using (List.mem_filter.mp hrp).2
    have h2 : rowId rq = k := by simpa using (List.mem_filter.mp hrq).2
    have h3 := subflight_id_inj (h1.trans h2.symm)
    rw [← hrpe, ← hrqe]
    exact h3.1

/-- C2 witness: the partition property evaluated on a concrete two-aircraft
input. -/
theorem segmentation_partition_witness :
    ((subflightKeys sampleDf2).flatMap (fun k => subflightPings sampleDf2 k)).Perm sampleDf2
    ∧ subflightPings sampleDf2 "A_0" ≠ [] :=
  ⟨(segmentation_partition sampleDf2).1,
    (segmentation_partition sampleDf2).2.1 "A_0" (by decide)⟩

/-- C1 counterexample: in the input `[B at 0, B at 1000, A at 0]` the global
`cumsum` has already counted B's gap when A's first row arrives, so aircraft
A's only subflight carries sequence number 1: A's sequence numbers are not
the consecutive sequence starting at 0. -/
theorem subflight_numbering_not_from_zero :
    ((annot [testPing "B" 0 0, testPing "B" 1000 0, testPing "A" 0 0]).filter
        (fun r => r.1.1.fr_id == "A")).map (fun r => r.2)
      ≠ List.range (((annot [testPing "B" 0 0, testPing "B" 1000 0, testPing "A" 0 0]).filter
        (fun r => r.1.1.fr_id == "A")).map (fun r => r.2)).length := by
  decide

/-- C1 (amended): the subflight sequence number is the running count of
threshold-exceeding deltas over the whole (geofiltered) input in row order,
not a per-aircraft count. Consequently each aircraft's sequence numbers are
nondecreasing, and when the input contains a single aircraft they are the
consecutive sequence 0, 1, 2, ... incremented exactly when that aircraft's
inter-ping gap exceeds the threshold. -/
theorem subflight_numbering_cumulative (l : List Ping) (a : String) :
    List.Pairwise (fun r r' : (Ping × Int) × Nat => r.2 ≤ r'.2)
      ((annot l).filter (fun r => r.1.1.fr_id == a))
    ∧ ((∀ p ∈ l, p.fr_id = a) →
        List.Chain' (fun r r' : (Ping × Int) × Nat =>
          r'.2 = if gap_threshold < r'.1.1.time - r.1.1.time then r.2 + 1 else r.2) (annot l)
        ∧ ((annot l).headD default).2 = 0) := by
  constructor
  · exact ((annot_pairwise l).sublist (List.filter_sublist _)).imp (fun h => h.1)
  · intro hall
    have hmemf : ∀ r ∈ annot l, r.1.1.fr_id = a := by
      intro r hr
      apply hall
      have := List.mem_map_of_mem (fun r : (Ping × Int) × Nat => r.1.1) hr
      rwa [annot_map_ping] at this
    have hfilter_all : (annot l).filter (fun r => r.1.1.fr_id == a) = annot l :=
      List.filter_eq_self.mpr (fun r hr => by simp [hmemf r hr])
    have hD : List.Chain' (fun r r' => r'.1.2 = r'.1.1.time - r.1.1.time) (annot l) := by
      have := annot_aircraft_chain l a
      rwa [hfilter_all] at this
    have hstep : List.Chain'
        (fun r r' : (Ping × Int) × Nat => r'.2 = if gap_threshold < r'.1.2 then r.2 + 1 else r.2)
        (annot l) := withNbGo_chain_step (withDelta l) 0
    constructor
    · refine (chain'_and hstep hD).imp ?_
      rintro r r' ⟨h1, h2⟩
      rw [h1, h2]
    · cases l with
      | nil => rfl
      | cons p ps => rfl

/-- C1 witness: the single-aircraft consequence evaluated on a concrete
two-ping input, along with its hypothesis. -/
theorem subflight_numbering_cumulative_witness :
    List.Pairwise (fun r r' : (Ping × Int) × Nat => r.2 ≤ r'.2)
      ((annot [testPing "A" 0 0, testPing "A" 400 0]).filter
        (fun r => r.1.1.fr_id == "A"))
    ∧ List.Chain' (fun r r' : (Ping × Int) × Nat =>
        r'.2 = if gap_threshold < r'.1.1.time - r.1.1.time then r.2 + 1 else r.2)
        (annot [testPing "A" 0 0, testPing "A" 400 0])
    ∧ ((annot [testPing "A" 0 0, testPing "A" 400 0]).headD default).2 = 0 :=
  ⟨(subflight_numbering_cumulative [testPing "A" 0 0, testPing "A" 400 0] "A").1,
    (subflight_numbering_cumulative [testPing "A" 0 0, testPing "A" 400 0] "A").2 (by decide)⟩

/-- C3 counterexample: the segmenter does not sort. A single aircraft's pings
given in the order `[0, 1000, 30]` produce different subflights from the
stably time-sorted order `[0, 30, 1000]`, so segmentation is not invariant
under reordering of pings within an aircraft group. -/
theorem segmentation_not_sort_invariant :
    sortByTime [testPing "A" 0 0, testPing "A" 1000 0, testPing "A" 30 0]
      = [testPing "A" 0 0, testPing "A" 30 0, testPing "A" 1000 0]
    ∧ subflightPings [testPing "A" 0 0, testPing "A" 1000 0, testPing "A" 30 0] "A_0"
      ≠ subflightPings [testPing "A" 0 0, testPing "A" 30 0, testPing "A" 1000 0] "A_0" := by
  constructor
  · decide
  · decide

/-- C3 (amended): the segmenter computes each aircraft's inter-ping deltas in
the original input row order, without sorting by timestamp: the delta rows of
one aircraft are exactly the spec's successive-difference computation applied
to that aircraft's pings in input order (first delta 0). Segmentation is
therefore not invariant under reordering within an aircraft group; it agrees
with the sort-first description only when each aircraft's pings already
arrive in time order. -/
theorem deltas_in_row_order (l : List Ping) (a : String) :
    (withDelta l).filter (fun r => r.1.fr_id == a)
      = spec_group_deltas none (l.filter (fun p => p.fr_id == a)) := by
  rw [withDelta, withDeltaGo_filter]

/-! ### Helper lemmas for the enrichment stage -/

theorem mem_aggregate {t1 t2 t3 : Lookup} {z : Ping → Bool} {df : List Ping} {e : RunwayEvent}
    (he : e ∈ aggregate_takeoffs_landings t1 t2 t3 z df) :
    ∃ k ∈ subflightKeys (df.filter z),
      e = mkEvent t1 t2 t3 (subflightPings (df.filter z) k) := by
  simp only [aggregate_takeoffs_landings] at he
  obtain ⟨k, hk, hke⟩ := List.mem_map.mp he
  exact ⟨k, hk, hke.symm⟩

theorem takeoff_ne_landing : ("takeoff" : String) ≠ "landing" := by decide

theorem rwy_event_of_eq_takeoff (m : ℚ) : rwy_event_of m = "takeoff" ↔ 0 ≤ m := by
  rw [rwy_event_of]
  split
  · rename_i h
    simp [h]
  · rename_i h
    constructor
    · intro hc
      exact absurd hc.symm takeoff_ne_landing
    · intro h0
      exact absurd h0 h

theorem rwy_event_of_eq_landing (m : ℚ) : rwy_event_of m = "landing" ↔ m < 0 := by
  rw [rwy_event_of]
  split
  · rename_i h
    constructor
    · intro hc
      exact absurd hc takeoff_ne_landing
    · intro h0
      exact absurd h (not_le.mpr h0)
  · rename_i h
    simp [not_le.mp h]

theorem connecting_landing (o d : String) : _get_connecting_airport "landing" o d = o := rfl

theorem connecting_takeoff (o d : String) : _get_connecting_airport "takeoff" o d = d := rfl

theorem connecting_default (ev o d : String) (h1 : ev ≠ "landing") (h2 : ev ≠ "takeoff") :
    _get_connecting_airport ev o d = "N/A" := by
  unfold _get_connecting_airport
  split
  · exact absurd rfl h1
  · exact absurd rfl h2
  · rfl

theorem resolve_name_ne_empty (t : Lookup) (code : String) : resolve_name t code ≠ "" := by
  intro h
  have hlen := congrArg String.length h
  rw [resolve_name, String.length_append, String.length_append, String.length_append,
    show (" (" : String).length = 2 from rfl, show (")" : String).length = 1 from rfl,
    show ("" : String).length = 0 from rfl] at hlen
  omega

theorem resolve_name_ne_NA (t : Lookup) (code : String) : resolve_name t code ≠ "N/A" := by
  intro h
  have hdata : ((t code).getD "").data ++ [' ', '('] ++ code.data ++ [')']
      = ['N', '/', 'A'] := congrArg String.data h
  have hmem : '(' ∈ (['N', '/', 'A'] : List Char) := by
    rw [← hdata]
    apply List.mem_append_left
    apply List.mem_append_left
    apply List.mem_append_right
    decide
  exact absurd hmem (by decide)

/-- C5: an output row is classified `takeoff` exactly when the mean vertical
speed over its subflight (carried in the output's `vertical_speed` column) is
nonnegative, and `landing` exactly when it is negative; in particular a mean
of exactly 0 classifies as `takeoff`. -/
theorem classification_by_mean_sign (t1 t2 t3 : Lookup) (z : Ping → Bool)
    (df : List Ping) (e : RunwayEvent)
    (he : e ∈ aggregate_takeoffs_landings t1 t2 t3 z df) :
    (e.rwy_event = "takeoff" ↔ 0 ≤ e.vertical_speed)
    ∧ (e.rwy_event = "landing" ↔ e.vertical_speed < 0) := by
  obtain ⟨k, hk, hke⟩ := mem_aggregate he
  subst hke
  simp only [mkEvent]
  exact ⟨rwy_event_of_eq_takeoff _, rwy_event_of_eq_landing _⟩

/-- C5 witness: the classification property evaluated on the single output
row produced from `sampleDf`. -/
theorem classification_by_mean_sign_witness :
    (sampleEvent.rwy_event = "takeoff" ↔ 0 ≤ sampleEvent.vertical_speed)
    ∧ (sampleEvent.rwy_event = "landing" ↔ sampleEvent.vertical_speed < 0) :=
  classification_by_mean_sign noTable noTable noTable allZone sampleDf sampleEvent
    (List.mem_cons_self _ _)

/-- C6: `_get_connecting_airport` returns the resolved origin-airport name for
classification `landing`, the resolved destination-airport name for
classification `takeoff`, and the literal `"N/A"` for any other classification
value; and every output row's connecting-airport column is exactly this
function applied to the row's classification, origin and destination names. -/
theorem connecting_airport_rule (ev orig dest : String)
    (hne1 : ev ≠ "landing") (hne2 : ev ≠ "takeoff")
    (t1 t2 t3 : Lookup) (z : Ping → Bool) (df : List Ping) (e : RunwayEvent)
    (he : e ∈ aggregate_takeoffs_landings t1 t2 t3 z df) :
    _get_connecting_airport "landing" orig dest = orig
    ∧ _get_connecting_airport "takeoff" orig dest = dest
    ∧ _get_connecting_airport ev orig dest = "N/A"
    ∧ e.connecting_airport
        = _get_connecting_airport e.rwy_event e.origin_airport e.destination_airport := by
  refine ⟨rfl, rfl, connecting_default ev orig dest hne1 hne2, ?_⟩
  obtain ⟨k, hk, hke⟩ := mem_aggregate he
  subst hke
  rfl

/-- C6 witness: the connecting-airport rule evaluated at concrete names, an
unknown classification string, and a concrete output row. -/
theorem connecting_airport_rule_witness :
    _get_connecting_airport "landing" "Madrid (MAD)" "London (LHR)" = "Madrid (MAD)"
    ∧ _get_connecting_airport "takeoff" "Madrid (MAD)" "London (LHR)" = "London (LHR)"
    ∧ _get_connecting_airport "go-around" "Madrid (MAD)" "London (LHR)" = "N/A"
    ∧ sampleEvent.connecting_airport = _get_connecting_airport sampleEvent.rwy_event
        sampleEvent.origin_airport sampleEvent.destination_airport :=
  connecting_airport_rule "go-around" "Madrid (MAD)" "London (LHR)" (by decide) (by decide)
    noTable noTable noTable allZone sampleDf sampleEvent (List.mem_cons_self _ _)

/-- C7: exactly one runway event is produced per subflight, a code missing
from its reference table resolves to the empty name followed by the code in
parentheses, and every resolved display field of an output row (airline,
aircraft, origin, destination, connecting airport) is a non-empty string. -/
theorem enrichment_total (t1 t2 t3 : Lookup) (z : Ping → Bool) (df : List Ping)
    (tm : Lookup) (code : String) (hmiss : tm code = none)
    (e : RunwayEvent) (he : e ∈ aggregate_takeoffs_landings t1 t2 t3 z df) :
    (aggregate_takeoffs_landings t1 t2 t3 z df).length
      = (subflightKeys (df.filter z)).length
    ∧ resolve_name tm code = " (" ++ code ++ ")"
    ∧ e.airline ≠ "" ∧ e.aircraft ≠ "" ∧ e.origin_airport ≠ ""
    ∧ e.destination_airport ≠ "" ∧ e.connecting_airport ≠ "" := by
  obtain ⟨k, hk, hke⟩ := mem_aggregate he
  subst hke
  refine ⟨by simp only [aggregate_takeoffs_landings, List.length_map], ?_,
    resolve_name_ne_empty _ _, resolve_name_ne_empty _ _, resolve_name_ne_empty _ _,
    resolve_name_ne_empty _ _, ?_⟩
  · rw [resolve_name, hmiss]
    rfl
  · simp only [mkEvent]
    rw [rwy_event_of]
    split
    · rw [connecting_takeoff]
      exact resolve_name_ne_empty _ _
    · rw [connecting_landing]
      exact resolve_name_ne_empty _ _

/-- C7 witness: the enrichment guarantees evaluated on a concrete input, with
the missing code `"XYZ"` resolving to `" (XYZ)"`. -/
theorem enrichment_total_witness :
    (aggregate_takeoffs_landings noTable noTable noTable allZone sampleDf).length
      = (subflightKeys (sampleDf.filter allZone)).length
    ∧ resolve_name noTable "XYZ" = " (" ++ "XYZ" ++ ")"
    ∧ sampleEvent.airline ≠ "" ∧ sampleEvent.aircraft ≠ ""
    ∧ sampleEvent.origin_airport ≠ "" ∧ sampleEvent.destination_airport ≠ ""
    ∧ sampleEvent.connecting_airport ≠ "" :=
  enrichment_total noTable noTable noTable allZone sampleDf noTable "XYZ" rfl
    sampleEvent (List.mem_cons_self _ _)

/-- C8: when no ping passes the geofilter, the pipeline returns the empty
output sequence (a valid terminal state, not an error). -/
theorem empty_filter_empty_output (t1 t2 t3 : Lookup) (z : Ping → Bool)
    (df : List Ping) (h : df.filter z = []) :
    aggregate_takeoffs_landings t1 t2 t3 z df = [] := by
  simp only [aggregate_takeoffs_landings, h]
  rfl

/-- C8 witness: the empty-output property evaluated on a concrete input none
of whose pings pass the filter. -/
theorem empty_filter_empty_output_witness :
    aggregate_takeoffs_landings noTable noTable noTable noZone sampleDf = [] :=
  empty_filter_empty_output noTable noTable noTable noZone sampleDf (by decide)

/-- C9 (amended): the runway heading is the inverse geodesic azimuth from the
first to the last coordinate of the centerline — a linestring with more than
two vertices uses only those two points — and it inherits the azimuth's
documented signed range `(-180, 180]`; it is not normalized to a 0–360
compass bearing. -/
theorem runway_heading_from_endpoints (az : (ℚ × ℚ) → (ℚ × ℚ) → ℚ)
    (hrange : ∀ p q, -180 < az p q ∧ az p q ≤ 180)
    (coords coords2 : List (ℚ × ℚ)) (h : coords ≠ []) (h2 : coords2 ≠ [])
    (hhead : coords.head h = coords2.head h2)
    (hlast : coords.getLast h = coords2.getLast h2) :
    (-180 < _runway_heading az coords h ∧ _runway_heading az coords h ≤ 180)
    ∧ _runway_heading az coords h = az (coords.head h) (coords.getLast h)
    ∧ _runway_heading az coords h = _runway_heading az coords2 h2 := by
  refine ⟨hrange _ _, rfl, ?_⟩
  rw [_runway_heading, _runway_heading, hhead, hlast]

/-- C9 witness: the amended heading property evaluated at a concrete azimuth
function and a three-vertex linestring sharing its endpoints with a
two-vertex one. -/
theorem runway_heading_from_endpoints_witness :
    (-180 < _runway_heading (constAz 45) [(0, 0), (1, 1), (2, 0)] (by decide)
      ∧ _runway_heading (constAz 45) [(0, 0), (1, 1), (2, 0)] (by decide) ≤ 180)
    ∧ _runway_heading (constAz 45) [(0, 0), (1, 1), (2, 0)] (by decide)
        = constAz 45 (([((0 : ℚ), (0 : ℚ)), (1, 1), (2, 0)]).head (by decide))
            (([((0 : ℚ), (0 : ℚ)), (1, 1), (2, 0)]).getLast (by decide))
    ∧ _runway_heading (constAz 45) [(0, 0), (1, 1), (2, 0)] (by decide)
        = _runway_heading (constAz 45) [(0, 0), (2, 0)] (by decide) :=
  runway_heading_from_endpoints (constAz 45)
    (fun p q => ⟨by norm_num [constAz], by norm_num [constAz]⟩)
    [(0, 0), (1, 1), (2, 0)] [(0, 0), (2, 0)] (by decide) (by decide) rfl rfl

/-- C9 counterexample: an azimuth value of -38 lies in `Geod.inv`'s documented
output range `(-180, 180]`, and `_runway_heading` returns it unchanged, so the
computed heading is negative: it is not a compass bearing in the claimed 0–360
range. -/
theorem runway_heading_not_compass :
    ((-180 : ℚ) < -38 ∧ (-38 : ℚ) ≤ 180)
    ∧ _runway_heading (constAz (-38)) [(0, 0), (1, 1)] (by decide) = -38
    ∧ ¬ (0 ≤ _runway_heading (constAz (-38)) [(0, 0), (1, 1)] (by decide)) := by
  refine ⟨⟨by norm_num, by norm_num⟩, rfl, by norm_num [_runway_heading, constAz]⟩

/-- C10: the `"N/A"` default branch is unreachable on pipeline output: every
output row's classification is `"takeoff"` or `"landing"`, its
connecting-airport column equals its destination- or origin-airport column
accordingly, and never the literal `"N/A"`. -/
theorem classification_binary_connecting (t1 t2 t3 : Lookup) (z : Ping → Bool)
    (df : List Ping) (e : RunwayEvent)
    (he : e ∈ aggregate_takeoffs_landings t1 t2 t3 z df) :
    (e.rwy_event = "takeoff" ∨ e.rwy_event = "landing")
    ∧ (e.connecting_airport = e.destination_airport
        ∨ e.connecting_airport = e.origin_airport)
    ∧ e.connecting_airport ≠ "N/A" := by
  obtain ⟨k, hk, hke⟩ := mem_aggregate he
  subst hke
  simp only [mkEvent]
  rcases le_or_lt 0 (mean_vs (subflightPings (df.filter z) k)) with hm | hm
  · have hev : rwy_event_of (mean_vs (subflightPings (df.filter z) k)) = "takeoff" :=
      if_pos hm
    rw [hev]
    exact ⟨Or.inl rfl, Or.inl (connecting_takeoff _ _),
      (connecting_takeoff _ _) ▸ resolve_name_ne_NA _ _⟩
  · have hev : rwy_event_of (mean_vs (subflightPings (df.filter z) k)) = "landing" :=
      if_neg (not_le.mpr hm)
    rw [hev]
    exact ⟨Or.inr rfl, Or.inr (connecting_landing _ _),
      (connecting_landing _ _) ▸ resolve_name_ne_NA _ _⟩

/-- C10 witness: the binary-classification property evaluated on a concrete
output row. -/
theorem classification_binary_connecting_witness :
    (sampleEvent.rwy_event = "takeoff" ∨ sampleEvent.rwy_event = "landing")
    ∧ (sampleEvent.connecting_airport = sampleEvent.destination_airport
        ∨ sampleEvent.connecting_airport = sampleEvent.origin_airport)
    ∧ sampleEvent.connecting_airport ≠ "N/A" :=
  classification_binary_connecting noTable noTable noTable allZone sampleDf
    sampleEvent (List.mem_cons_self _ _)
